import Mathlib

/-!
Shallow embedding of the pynetics evolutionary-computation library, as far as
the repository exhibits it: the canonical maximize-ones fitness function
appears verbatim in the Quick Start notebook; the engine, operator and
strategy components are modelled from the specification's descriptions, since
the library modules themselves are not among the source files.  Individuals
are gene sequences (binary genes are `Bool` or integers in {0,1}), fitness
values are rationals, and every stochastic operator threads an explicit
pseudo-random source so that runs are pure functions of the seed.
-/

namespace Pynetics

/-- From the notebook source: `1. / (1. + (len(individual) - sum(individual)))`.
Genes are Python integers, so the individual is a list of integers; the float
arithmetic is embedded as exact rational arithmetic. -/
def maximize_ones_fitness (individual : List ℤ) : ℚ :=
  1 / (1 + ((individual.length : ℚ) - (individual.sum : ℚ)))

/-- The two-step form of the same function reported for the other observed
notebook: first `error = len(individual) - sum(individual)`, then
`1 / (1 + error)`.  Written from that description, to be compared with the
single-expression form above. -/
def maximize_ones_fitness_two_step (individual : List ℤ) : ℚ :=
  let error : ℚ := (individual.length : ℚ) - (individual.sum : ℚ)
  1 / (1 + error)

/-- Modelled from the spec: a Population's `best()` accessor returns the
maximum-fitness individual; at the level of fitness values this is the
maximum of the population's fitness list (0 for an empty list, which the
engine never produces). -/
def bestFitness : List ℚ → ℚ
  | [] => 0
  | [a] => a
  | a :: b :: t => max a (bestFitness (b :: t))

/-- Modelled from the spec: `FitnessBound(threshold).is_met(population)` is
true iff `population.best().fitness() >= threshold`. -/
def fitnessBound_is_met (threshold : ℚ) (pop : List ℚ) : Bool :=
  decide (threshold ≤ bestFitness pop)

/-- Modelled from the spec: ranking a pool by fitness, best first (LowElitism
ranks the current population and the offspring pool by fitness). -/
def sortByFitness {α : Type} (fit : α → ℚ) (l : List α) : List α :=
  l.insertionSort (fun x y => fit y ≤ fit x)

/-- Modelled from the spec: LowElitism replacement.  With `N` the current
population size, it computes `k = round(r × N)`, removes the `k` worst-ranked
current individuals (keeping the `N − k` best) and inserts the `k` best
offspring; if the offspring pool is smaller than `k`, all offspring are
inserted and the remaining slots keep existing individuals. -/
def lowElitism {α : Type} (fit : α → ℚ) (r : ℚ) (pop off : List α) : List α :=
  let N := pop.length
  let k := (round (r * (N : ℚ))).toNat
  let kp := min k off.length
  (sortByFitness fit pop).take (N - kp) ++ (sortByFitness fit off).take kp

/-- Modelled from the spec: the deterministic core of OnePointRecombination at
cut index `k`: childA is parentA's genes `[0:k]` followed by parentB's genes
`[k:L]`, childB the complementary concatenation. -/
def onePointRecombine {α : Type} (parentA parentB : List α) (k : ℕ) :
    List α × List α :=
  (parentA.take k ++ parentB.drop k, parentB.take k ++ parentA.drop k)

/-- Modelled from the spec: the linear congruential pseudo-random source; the
single shared, seedable random source every stochastic operator draws from. -/
def lcg (s : ℕ) : ℕ :=
  (1103515245 * s + 12345) % 2147483648

/-- Modelled from the spec: one draw of a rational in `[0, 1)` from the shared
source, returning the advanced source state alongside the value. -/
def randUnit (s : ℕ) : ℕ × ℚ :=
  (lcg s, ((lcg s % 1000 : ℕ) : ℚ) / 1000)

/-- Modelled from the spec: OnePointRecombination chooses a cut index `k`
uniformly from `[1, L−1]`; when no valid `k` exists (`L ≤ 1`) this is a
configuration error, embedded as `none` rather than a clamped or retried
value. -/
def chooseCutIndex (L : ℕ) (s : ℕ) : Option ℕ :=
  if 2 ≤ L then some (1 + lcg s % (L - 1)) else none

/-- Modelled from the spec: the full OnePointRecombination operator: requires
equal-length parents, draws a cut index from the shared source, and fails
(configuration error) when the cut-index selection is impossible. -/
def onePointRecombination {α : Type} (parentA parentB : List α) (s : ℕ) :
    Option (List α × List α) :=
  if parentA.length = parentB.length then
    match chooseCutIndex parentA.length s with
    | some k => some (onePointRecombine parentA parentB k)
    | none => none
  else none

/-- Modelled from the spec: AllGenesCanSwitch mutation on binary genes; each
of the `L` genes is gated independently: gene `i` is toggled exactly when its
own uniform draw is below the per-gene probability `p`. -/
def allGenesCanSwitch (p : ℚ) (genes : List Bool) (draws : List ℚ) :
    List Bool :=
  List.zipWith (fun g u => if u < p then !g else g) genes draws

/-- Modelled from the spec: engine construction configuration — population
size, individual length, the opaque fitness function, tournament size, the
gating probabilities, the replacement rate and the stop threshold. -/
structure GAConfig where
  size : ℕ
  indLength : ℕ
  fit : List Bool → ℚ
  tournamentSize : ℕ
  pRecombination : ℚ
  pMutation : ℚ
  replacementRate : ℚ
  fitnessThreshold : ℚ

/-- Modelled from the spec: SpawningPool draws `n` fresh uniformly random
binary genes from the shared source. -/
def spawnGenes : ℕ → ℕ → List Bool × ℕ
  | 0, s => ([], s)
  | n + 1, s =>
      let q := spawnGenes n (lcg s)
      ((lcg s % 2 = 1) :: q.1, q.2)

/-- Modelled from the spec: the initial population is built by `n` successive
calls to the SpawningPool, each of individual length `L`. -/
def spawnPopulation (L : ℕ) : ℕ → ℕ → List (List Bool) × ℕ
  | 0, s => ([], s)
  | n + 1, s =>
      let p := spawnGenes L s
      let q := spawnPopulation L n p.2
      (p.1 :: q.1, q.2)

/-- Modelled from the spec: Tournament(n) draws `n` individuals without
replacement within one tournament and returns the one with highest fitness,
ties broken by first drawn; `none` on an empty pool. -/
def tournamentDraw (fit : List Bool → ℚ) :
    ℕ → List (List Bool) → ℕ → Option (List Bool) × ℕ
  | 0, _, s => (none, s)
  | n + 1, pool, s =>
      if pool.length = 0 then (none, s)
      else
        let i := lcg s % pool.length
        let c := pool.getD i []
        let t := tournamentDraw fit n (pool.eraseIdx i) (lcg s)
        match t.1 with
        | none => (some c, t.2)
        | some d => (some (if fit c < fit d then d else c), t.2)

/-- Modelled from the spec: the engine's selection step, one parent per call. -/
def selectParent (cfg : GAConfig) (pop : List (List Bool)) (s : ℕ) :
    List Bool × ℕ :=
  let t := tournamentDraw cfg.fit cfg.tournamentSize pop s
  (t.1.getD [], t.2)

/-- Modelled from the spec: RandomMaskRecombination — for each gene position
an independent fair coin chooses which parent contributes to childA, and
childB receives the complementary gene at that position. -/
def randomMaskRecombine : List Bool → List Bool → ℕ → (List Bool × List Bool) × ℕ
  | [], _, s => (([], []), s)
  | _ :: _, [], s => (([], []), s)
  | a :: as, b :: bs, s =>
      let q := randomMaskRecombine as bs (lcg s)
      (if lcg s % 2 = 0 then (a :: q.1.1, b :: q.1.2)
        else (b :: q.1.1, a :: q.1.2), q.2)

/-- Modelled from the spec: the recombination probability gate — with
probability `p_r` the operator runs; otherwise the parents are carried
forward unchanged as the offspring pair. -/
def gatedRecombination (cfg : GAConfig) (pa pb : List Bool) (s : ℕ) :
    (List Bool × List Bool) × ℕ :=
  let q := randUnit s
  if q.2 < cfg.pRecombination then randomMaskRecombine pa pb q.1
  else ((pa, pb), q.1)

/-- Modelled from the spec: the per-gene mutation step as the engine runs it:
each gene of the offspring takes its own fresh draw from the shared source
and is toggled when the draw falls below `p_m`. -/
def mutateGenes (p : ℚ) : List Bool → ℕ → List Bool × ℕ
  | [], s => ([], s)
  | g :: gs, s =>
      let u := randUnit s
      let q := mutateGenes p gs u.1
      ((if u.2 < p then !g else g) :: q.1, q.2)

/-- Modelled from the spec: one Selection→Recombination→Mutation cycle yields
two offspring from two selected parents; the engine loops the cycle until the
offspring count reaches the population size. -/
def offspringPairs (cfg : GAConfig) (pop : List (List Bool)) :
    ℕ → ℕ → List (List Bool) × ℕ
  | 0, s => ([], s)
  | n + 1, s =>
      let pa := selectParent cfg pop s
      let pb := selectParent cfg pop pa.2
      let c := gatedRecombination cfg pa.1 pb.1 pb.2
      let ma := mutateGenes cfg.pMutation c.1.1 c.2
      let mb := mutateGenes cfg.pMutation c.1.2 ma.2
      let q := offspringPairs cfg pop n mb.2
      (ma.1 :: mb.1 :: q.1, q.2)

/-- Modelled from the spec: a full offspring batch of size `N`, produced by
pairwise cycles looped until the count reaches `N` and truncated when the
pairwise arity overshoots by one. -/
def offspringBatch (cfg : GAConfig) (pop : List (List Bool)) (s : ℕ) :
    List (List Bool) × ℕ :=
  let q := offspringPairs cfg pop ((cfg.size + 1) / 2) s
  (q.1.take cfg.size, q.2)

/-- Modelled from the spec: one generation transition — produce the offspring
batch, evaluate fitness, and fold it into the population via the replacement
strategy. -/
def engineStep (cfg : GAConfig) (pop : List (List Bool)) (s : ℕ) :
    List (List Bool) × ℕ :=
  let q := offspringBatch cfg pop s
  (lowElitism cfg.fit cfg.replacementRate pop q.1, q.2)

/-- Modelled from the spec: whether the stop condition fires on the current
population. -/
def engineStopped (cfg : GAConfig) (pop : List (List Bool)) : Bool :=
  fitnessBound_is_met cfg.fitnessThreshold (pop.map cfg.fit)

/-- Modelled from the spec: the sequence of populations the run loop holds at
each stop-condition check, starting from the given population and stepping
one generation at a time until the stop condition fires or the generation
fuel runs out. -/
def enginePopulations (cfg : GAConfig) :
    ℕ → List (List Bool) → ℕ → List (List (List Bool))
  | 0, pop, _ => [pop]
  | g + 1, pop, s =>
      if engineStopped cfg pop then [pop]
      else
        let q := engineStep cfg pop s
        pop :: enginePopulations cfg g q.1 q.2

/-- Modelled from the spec: a complete run from a seed — spawn the initial
population from the shared source, then iterate the generational loop —
observed through the populations it holds. -/
def engineRunPopulations (cfg : GAConfig) (fuel seed : ℕ) :
    List (List (List Bool)) :=
  let q := spawnPopulation cfg.indLength cfg.size seed
  enginePopulations cfg fuel q.1 q.2

/-- Modelled from the spec: the generation-by-generation best-fitness
trajectory of a complete run from a seed. -/
def engineTrajectory (cfg : GAConfig) (fuel seed : ℕ) : List ℚ :=
  (engineRunPopulations cfg fuel seed).map (fun pop => bestFitness (pop.map cfg.fit))

/-- A small concrete configuration in the shape of the Quick Start scenario:
binary individuals scored by the maximize-ones fitness, tournament size 2,
and in-range probabilities. -/
def exampleConfig : GAConfig where
  size := 2
  indLength := 3
  fit := fun l => maximize_ones_fitness (l.map fun b => if b then 1 else 0)
  tournamentSize := 2
  pRecombination := 1 / 2
  pMutation := 1 / 2
  replacementRate := 1 / 2
  fitnessThreshold := 1

lemma bestFitness_cons (a : ℚ) (l : List ℚ) (h : l ≠ []) :
    bestFitness (a :: l) = max a (bestFitness l) := by
  cases l with
  | nil => exact absurd rfl h
  | cons b t => rfl

lemma le_bestFitness {x : ℚ} : ∀ {l : List ℚ}, x ∈ l → x ≤ bestFitness l
  | [], hx => absurd hx (List.not_mem_nil x)
  | [a], hx => by
      rcases List.mem_singleton.mp hx with rfl
      exact le_rfl
  | a :: b :: t, hx => by
      rcases List.mem_cons.mp hx with rfl | hx
      · exact le_max_left _ _
      · exact le_trans (le_bestFitness hx) (le_max_right _ _)

lemma bestFitness_mem : ∀ {l : List ℚ}, l ≠ [] → bestFitness l ∈ l
  | [], h => absurd rfl h
  | [a], _ => by simp [bestFitness]
  | a :: b :: t, _ => by
      rcases max_cases a (bestFitness (b :: t)) with ⟨he, _⟩ | ⟨he, _⟩
      · simp [bestFitness, he]
      · have := bestFitness_mem (l := b :: t) (by simp)
        simp only [bestFitness, he]
        exact List.mem_cons_of_mem a this

lemma bestFitness_eq_of {l : List ℚ} {y : ℚ} (hy : y ∈ l)
    (hub : ∀ x ∈ l, x ≤ y) : bestFitness l = y := by
  have hne : l ≠ [] := by rintro rfl; exact (List.not_mem_nil y) hy
  exact le_antisymm (hub _ (bestFitness_mem hne)) (le_bestFitness hy)

/-- Binary genes: every entry of the individual is 0 or 1. -/
def BinaryGenes (individual : List ℤ) : Prop :=
  ∀ g ∈ individual, g = 0 ∨ g = 1

lemma sum_le_length_of_binary {l : List ℤ} (h : ∀ g ∈ l, g = 0 ∨ g = 1) :
    0 ≤ l.sum ∧ l.sum ≤ (l.length : ℤ) := by
  induction l with
  | nil => simp
  | cons a t ih =>
      have ha := h a (List.mem_cons_self a t)
      have ht := ih (fun g hg => h g (List.mem_cons_of_mem a hg))
      rcases ha with rfl | rfl <;>
        simp only [List.sum_cons, List.length_cons] <;>
        push_cast <;> omega

lemma sum_eq_length_iff_all_one {l : List ℤ} (h : ∀ g ∈ l, g = 0 ∨ g = 1) :
    l.sum = (l.length : ℤ) ↔ ∀ g ∈ l, g = 1 := by
  induction l with
  | nil => simp
  | cons a t ih =>
      have ha := h a (List.mem_cons_self a t)
      have ht := sum_le_length_of_binary (fun g hg => h g (List.mem_cons_of_mem a hg))
      have iht := ih (fun g hg => h g (List.mem_cons_of_mem a hg))
      constructor
      · intro hs
        have hat : a + t.sum = (t.length : ℤ) + 1 := by
          simpa [List.sum_cons, List.length_cons, add_comm] using hs
        rcases ha with rfl | rfl
        · omega
        · intro g hg
          rcases List.mem_cons.mp hg with rfl | hg
          · rfl
          · exact (iht.mp (by omega)) g hg
      · intro hall
        have ha1 : a = 1 := hall a (List.mem_cons_self a t)
        have hts : t.sum = (t.length : ℤ) :=
          iht.mpr (fun g hg => hall g (List.mem_cons_of_mem a hg))
        simp [List.sum_cons, List.length_cons, ha1, hts]
        ring

lemma denom_ge_one {l : List ℤ} (h : ∀ g ∈ l, g = 0 ∨ g = 1) :
    (1 : ℚ) ≤ 1 + ((l.length : ℚ) - (l.sum : ℚ)) := by
  have := sum_le_length_of_binary h
  have hle : (l.sum : ℚ) ≤ (l.length : ℚ) := by exact_mod_cast this.2
  linarith

lemma length_sortByFitness {α : Type} (fit : α → ℚ) (l : List α) :
    (sortByFitness fit l).length = l.length :=
  List.length_insertionSort _ _

lemma mem_sortByFitness {α : Type} (fit : α → ℚ) {x : α} {l : List α} :
    x ∈ sortByFitness fit l ↔ x ∈ l :=
  List.mem_insertionSort _

lemma sortByFitness_id_head (l : List ℚ) (hl : l ≠ []) :
    (sortByFitness id l).head? = some (bestFitness l) := by
  induction l with
  | nil => exact absurd rfl hl
  | cons a t ih =>
      cases t with
      | nil => rfl
      | cons b u =>
          have ih2 := ih (by simp)
          rw [sortByFitness] at ih2 ⊢
          rw [List.insertionSort]
          obtain ⟨m, rest, hm⟩ : ∃ m rest,
              List.insertionSort (fun x y : ℚ => id y ≤ id x) (b :: u) = m :: rest := by
            cases hso : List.insertionSort (fun x y : ℚ => id y ≤ id x) (b :: u) with
            | nil =>
                have := congrArg List.length hso
                rw [List.length_insertionSort] at this
                simp at this
            | cons m rest => exact ⟨m, rest, rfl⟩
          rw [hm] at ih2 ⊢
          have hmbest : m = bestFitness (b :: u) := by
            simpa using ih2
          rw [List.orderedInsert]
          have hbf : bestFitness (a :: b :: u) = max a (bestFitness (b :: u)) := rfl
          by_cases hma : (m : ℚ) ≤ a
          · rw [if_pos (by simpa using hma)]
            simp [hbf, ← hmbest, max_eq_left hma]
          · rw [if_neg (by simpa using hma)]
            simp [hbf, ← hmbest, max_eq_right (le_of_not_le hma)]

lemma round_toNat_le (r : ℚ) (N : ℕ) (h0 : 0 ≤ r) (h1 : r ≤ 1) :
    (round (r * (N : ℚ))).toNat ≤ N := by
  have hle : r * (N : ℚ) ≤ (N : ℚ) := by
    nlinarith [Nat.cast_nonneg (α := ℚ) N]
  have h : round (r * (N : ℚ)) ≤ (N : ℤ) := by
    calc round (r * (N : ℚ)) ≤ round ((N : ℚ)) := by
          rw [round_eq, round_eq]
          exact Int.floor_le_floor (by linarith)
      _ = (N : ℤ) := round_natCast N
  omega

lemma lowElitism_length {α : Type} (fit : α → ℚ) (r : ℚ) (pop off : List α)
    (h0 : 0 ≤ r) (h1 : r ≤ 1) :
    (lowElitism fit r pop off).length = pop.length := by
  have hk := round_toNat_le r pop.length h0 h1
  simp only [lowElitism, List.length_append, List.length_take, length_sortByFitness]
  omega

/-- C2: for every binary individual, the canonical maximize-ones fitness is
strictly greater than 0 and at most 1, and it equals 1 exactly when every
gene equals 1. -/
theorem maximize_ones_fitness_bounds (individual : List ℤ)
    (h : BinaryGenes individual) :
    0 < maximize_ones_fitness individual ∧
      maximize_ones_fitness individual ≤ 1 ∧
      (maximize_ones_fitness individual = 1 ↔ ∀ g ∈ individual, g = 1) := by
  have hd : (1 : ℚ) ≤ 1 + ((individual.length : ℚ) - (individual.sum : ℚ)) :=
    denom_ge_one h
  have hpos : (0 : ℚ) < 1 + ((individual.length : ℚ) - (individual.sum : ℚ)) := by
    linarith
  refine ⟨div_pos one_pos hpos, ?_, ?_⟩
  · rw [maximize_ones_fitness, div_le_one hpos]
    exact hd
  · rw [maximize_ones_fitness, div_eq_one_iff_eq (ne_of_gt hpos)]
    rw [← sum_eq_length_iff_all_one h]
    constructor
    · intro he
      have : (individual.sum : ℚ) = (individual.length : ℚ) := by linarith
      exact_mod_cast this
    · intro he
      have : (individual.sum : ℚ) = (individual.length : ℚ) := by exact_mod_cast he
      linarith

theorem maximize_ones_fitness_bounds_witness :
    0 < maximize_ones_fitness [1, 0, 1] :=
  (maximize_ones_fitness_bounds [1, 0, 1] (by unfold BinaryGenes; decide)).1

/-- C10: for every binary individual the fitness evaluation is total: the
denominator is at least 1, in particular nonzero, and the resulting value is
a well-defined positive number. -/
theorem maximize_ones_fitness_total (individual : List ℤ)
    (h : BinaryGenes individual) :
    1 ≤ 1 + ((individual.length : ℚ) - (individual.sum : ℚ)) ∧
      1 + ((individual.length : ℚ) - (individual.sum : ℚ)) ≠ 0 ∧
      0 < maximize_ones_fitness individual := by
  have hd := denom_ge_one h
  exact ⟨hd, by linarith, div_pos one_pos (by linarith)⟩

theorem maximize_ones_fitness_total_witness :
    1 + (((List.length [0, 1] : ℕ) : ℚ) - ((List.sum [0, 1] : ℤ) : ℚ)) ≠ 0 :=
  (maximize_ones_fitness_total [0, 1] (by unfold BinaryGenes; decide)).2.1

/-- C9: the single-expression form of the maximize-ones fitness and the
two-step form (first compute the error, then take its reciprocal shifted by
one) compute equal values on every individual. -/
theorem maximize_ones_fitness_forms_agree (individual : List ℤ) :
    maximize_ones_fitness individual = maximize_ones_fitness_two_step individual :=
  rfl

/-- C4: the FitnessBound stop condition is met exactly when the best fitness
of the population reaches the threshold, and it is unmet exactly when the
best fitness is strictly below the threshold. -/
theorem fitnessBound_is_met_iff (threshold : ℚ) (pop : List ℚ) :
    (fitnessBound_is_met threshold pop = true ↔ threshold ≤ bestFitness pop) ∧
      (fitnessBound_is_met threshold pop = false ↔ bestFitness pop < threshold) := by
  constructor
  · simp [fitnessBound_is_met]
  · simp [fitnessBound_is_met]

/-- C5: for every pair of equal-length parents and every valid cut index `k`,
OnePointRecombination yields childA as parentA's prefix of length `k`
followed by parentB's suffix and childB as the complementary concatenation;
both children have length `L`, and at every position each child carries one
parent's gene with the other child carrying the complementary one. -/
theorem onePointRecombine_spec {α : Type} (parentA parentB : List α) (L k : ℕ)
    (hA : parentA.length = L) (hB : parentB.length = L)
    (hk1 : 1 ≤ k) (hkL : k ≤ L - 1) :
    (onePointRecombine parentA parentB k).1 = parentA.take k ++ parentB.drop k ∧
      (onePointRecombine parentA parentB k).2 = parentB.take k ++ parentA.drop k ∧
      (onePointRecombine parentA parentB k).1.length = L ∧
      (onePointRecombine parentA parentB k).2.length = L ∧
      ∀ i, i < L →
        ((onePointRecombine parentA parentB k).1[i]? = parentA[i]? ∧
            (onePointRecombine parentA parentB k).2[i]? = parentB[i]?) ∨
          ((onePointRecombine parentA parentB k).1[i]? = parentB[i]? ∧
            (onePointRecombine parentA parentB k).2[i]? = parentA[i]?) := by
  have hkLe : k ≤ L := by omega
  refine ⟨rfl, rfl, ?_, ?_, ?_⟩
  · simp [onePointRecombine, hA, hB]
    omega
  · simp [onePointRecombine, hA, hB]
    omega
  · intro i hi
    have htakeA : (parentA.take k).length = k := by simp [hA]; omega
    have htakeB : (parentB.take k).length = k := by simp [hB]; omega
    by_cases hik : i < k
    · left
      constructor
      · show (parentA.take k ++ parentB.drop k)[i]? = parentA[i]?
        rw [List.getElem?_append_left (by omega), List.getElem?_take_of_lt hik]
      · show (parentB.take k ++ parentA.drop k)[i]? = parentB[i]?
        rw [List.getElem?_append_left (by omega), List.getElem?_take_of_lt hik]
    · right
      have hki : k ≤ i := by omega
      constructor
      · show (parentA.take k ++ parentB.drop k)[i]? = parentB[i]?
        rw [List.getElem?_append_right (by omega), List.getElem?_drop, htakeA]
        congr 1
        omega
      · show (parentB.take k ++ parentA.drop k)[i]? = parentA[i]?
        rw [List.getElem?_append_right (by omega), List.getElem?_drop, htakeB]
        congr 1
        omega

theorem onePointRecombine_spec_witness :
    (onePointRecombine [true, true] [false, false] 1).1.length = 2 :=
  (onePointRecombine_spec [true, true] [false, false] 2 1 rfl rfl
    (by decide) (by decide)).2.2.1

/-- C6: AllGenesCanSwitch with per-gene probability 0 leaves every gene
unchanged, and with per-gene probability 1 toggles every gene, because each
gene is gated by its own independent draw from the unit interval. -/
theorem allGenesCanSwitch_extremes (genes : List Bool) (draws : List ℚ)
    (hlen : genes.length = draws.length)
    (hdr : ∀ u ∈ draws, 0 ≤ u ∧ u < 1) :
    allGenesCanSwitch 0 genes draws = genes ∧
      allGenesCanSwitch 1 genes draws = genes.map (fun g => !g) := by
  induction genes generalizing draws with
  | nil => simp [allGenesCanSwitch]
  | cons g gs ih =>
      cases draws with
      | nil => simp at hlen
      | cons u us =>
          have hu := hdr u (List.mem_cons_self u us)
          have ihs := ih us (by simpa using hlen)
            (fun v hv => hdr v (List.mem_cons_of_mem u hv))
          constructor
          · show (if u < 0 then !g else g) ::
                List.zipWith (fun g u => if u < (0 : ℚ) then !g else g) gs us = g :: gs
            rw [if_neg (not_lt.mpr hu.1)]
            exact congrArg (g :: ·) ihs.1
          · show (if u < 1 then !g else g) ::
                List.zipWith (fun g u => if u < (1 : ℚ) then !g else g) gs us =
                (!g) :: gs.map (fun g => !g)
            rw [if_pos hu.2]
            exact congrArg ((!g) :: ·) ihs.2

theorem allGenesCanSwitch_extremes_witness :
    allGenesCanSwitch 1 [true, false] [0, 1 / 2] =
      [true, false].map (fun g => !g) :=
  (allGenesCanSwitch_extremes [true, false] [0, 1 / 2] rfl
    (by intro u hu; fin_cases hu <;> norm_num)).2

/-- C8: on individuals of length 1 there is no valid cut index, and
OnePointRecombination rejects the configuration outright: the operator
returns the error value, never a clamped or degraded recombination. -/
theorem onePointRecombination_len_one {α : Type} (parentA parentB : List α)
    (s : ℕ) (hA : parentA.length = 1) :
    onePointRecombination parentA parentB s = none := by
  unfold onePointRecombination chooseCutIndex
  rw [hA]
  split_ifs with h1 h2
  · omega
  · rfl
  · rfl

theorem onePointRecombination_len_one_witness :
    onePointRecombination [true] [false] 0 = none :=
  onePointRecombination_len_one [true] [false] 0 rfl

/-- C3 (counterexample to the claim as stated): with replacement rate 1 on a
population of size 1, the single best individual is superior to every
offspring and is nonetheless evicted — `k = round(1 × 1) = 1` removes the
whole population — so the maximum fitness decreases across the replacement
step. -/
theorem lowElitism_claim_counterexample :
    ((0 : ℚ) ≤ 1 ∧ (1 : ℚ) ≤ 1) ∧
      (0 : ℚ) < bestFitness [(1 : ℚ)] ∧
      lowElitism id 1 [(1 : ℚ)] [(0 : ℚ)] = [(0 : ℚ)] ∧
      bestFitness (lowElitism id 1 [(1 : ℚ)] [(0 : ℚ)]) < bestFitness [(1 : ℚ)] := by
  have hk : (round ((1 : ℚ) * (([(1 : ℚ)].length : ℕ) : ℚ))).toNat = 1 := by
    norm_num
  have heq : lowElitism id 1 [(1 : ℚ)] [(0 : ℚ)] = [(0 : ℚ)] := by
    simp only [lowElitism, hk]
    rfl
  refine ⟨⟨by norm_num, le_refl 1⟩, by norm_num [bestFitness], heq, ?_⟩
  rw [heq]
  norm_num [bestFitness]

/-- C3 (amended): when the offspring pool holds at least `k = round(r × N)`
individuals and `k < N`, LowElitism keeps the `N − k` best-ranked current
individuals and inserts the `k` best-ranked offspring, the result has size
`N`, and whenever the best current individual is superior to every offspring
the population's maximum fitness is preserved across the replacement step. -/
theorem lowElitism_amended (pop off : List ℚ) (r : ℚ) (k : ℕ)
    (hk : k = (round (r * (pop.length : ℚ))).toNat)
    (hoffk : k ≤ off.length)
    (hklt : k < pop.length) :
    lowElitism id r pop off =
        (sortByFitness id pop).take (pop.length - k) ++
          (sortByFitness id off).take k ∧
      (lowElitism id r pop off).length = pop.length ∧
      ((∀ f ∈ off, f < bestFitness pop) →
        bestFitness (lowElitism id r pop off) = bestFitness pop) := by
  have hpop : pop ≠ [] := by
    intro h
    rw [h] at hklt
    simp at hklt
  have heq : lowElitism id r pop off =
      (sortByFitness id pop).take (pop.length - k) ++
        (sortByFitness id off).take k := by
    simp only [lowElitism, ← hk, min_eq_left hoffk]
  have hlen : (lowElitism id r pop off).length = pop.length := by
    rw [heq]
    simp only [List.length_append, List.length_take, length_sortByFitness]
    omega
  refine ⟨heq, hlen, ?_⟩
  intro hsup
  obtain ⟨m, rest, hm⟩ : ∃ m rest, sortByFitness id pop = m :: rest := by
    cases hso : sortByFitness id pop with
    | nil =>
        have := congrArg List.length hso
        rw [length_sortByFitness] at this
        simp at this
        exact absurd this hpop
    | cons m rest => exact ⟨m, rest, rfl⟩
  have hmbest : m = bestFitness pop := by
    have := sortByFitness_id_head pop hpop
    rw [hm] at this
    simpa using this
  have hcons : (sortByFitness id pop).take (pop.length - k) =
      m :: rest.take (pop.length - k - 1) := by
    rw [hm]
    have hsucc : pop.length - k = (pop.length - k - 1) + 1 := by omega
    rw [hsucc, List.take_succ_cons]
    simp
  apply bestFitness_eq_of
  · rw [heq, hcons, ← hmbest]
    exact List.mem_cons_self m _
  · intro x hx
    rw [heq] at hx
    rcases List.mem_append.mp hx with hx | hx
    · have hx2 : x ∈ pop := (mem_sortByFitness id).mp (List.mem_of_mem_take hx)
      exact le_bestFitness hx2
    · have hx2 : x ∈ off := (mem_sortByFitness id).mp (List.mem_of_mem_take hx)
      exact le_of_lt (hsup x hx2)

theorem lowElitism_amended_witness :
    bestFitness (lowElitism id (1 / 2) [(2 : ℚ), 1] [(0 : ℚ)]) =
      bestFitness [(2 : ℚ), 1] :=
  (lowElitism_amended [(2 : ℚ), 1] [(0 : ℚ)] (1 / 2) 1
    (by norm_num)
    (by norm_num)
    (by norm_num)).2.2
    (by intro f hf; fin_cases hf; norm_num [bestFitness])

lemma spawnGenes_length (n : ℕ) : ∀ s, (spawnGenes n s).1.length = n := by
  induction n with
  | zero => intro s; rfl
  | succ n ih =>
      intro s
      simp [spawnGenes, ih]

lemma spawnPopulation_length (L : ℕ) (n : ℕ) : ∀ s,
    (spawnPopulation L n s).1.length = n := by
  induction n with
  | zero => intro s; rfl
  | succ n ih =>
      intro s
      simp [spawnPopulation, ih]

lemma offspringPairs_length (cfg : GAConfig) (pop : List (List Bool)) (n : ℕ) :
    ∀ s, (offspringPairs cfg pop n s).1.length = 2 * n := by
  induction n with
  | zero => intro s; rfl
  | succ n ih =>
      intro s
      simp [offspringPairs, ih]
      omega

lemma offspringBatch_length (cfg : GAConfig) (pop : List (List Bool)) (s : ℕ) :
    (offspringBatch cfg pop s).1.length = cfg.size := by
  simp [offspringBatch, List.length_take, offspringPairs_length]
  omega

lemma engineStep_length (cfg : GAConfig) (pop : List (List Bool)) (s : ℕ)
    (h0 : 0 ≤ cfg.replacementRate) (h1 : cfg.replacementRate ≤ 1) :
    (engineStep cfg pop s).1.length = pop.length := by
  simp only [engineStep]
  exact lowElitism_length cfg.fit cfg.replacementRate pop
    (offspringBatch cfg pop s).1 h0 h1

lemma enginePopulations_sizes (cfg : GAConfig)
    (h0 : 0 ≤ cfg.replacementRate) (h1 : cfg.replacementRate ≤ 1) :
    ∀ fuel pop s, pop.length = cfg.size →
      ((enginePopulations cfg fuel pop s).all fun p => p.length == cfg.size) = true := by
  intro fuel
  induction fuel with
  | zero =>
      intro pop s hpop
      simp [enginePopulations, hpop]
  | succ g ih =>
      intro pop s hpop
      rw [enginePopulations]
      by_cases hstop : engineStopped cfg pop
      · simp [hstop, hpop]
      · have hstep := engineStep_length cfg pop s h0 h1
        have := ih (engineStep cfg pop s).1 (engineStep cfg pop s).2
          (by rw [hstep, hpop])
        simp [hstop, hpop, this]

/-- C1: every population the run loop holds — from the spawned initial
population, through every generation transition, to the final population —
has exactly the configured size `N`: the replacement strategy restores the
population to size `N` after every offspring batch. -/
theorem engine_population_size_invariant (cfg : GAConfig) (fuel seed : ℕ)
    (h0 : 0 ≤ cfg.replacementRate) (h1 : cfg.replacementRate ≤ 1) :
    ((engineRunPopulations cfg fuel seed).all
      fun p => p.length == cfg.size) = true := by
  rw [engineRunPopulations]
  exact enginePopulations_sizes cfg h0 h1 fuel
    (spawnPopulation cfg.indLength cfg.size seed).1
    (spawnPopulation cfg.indLength cfg.size seed).2
    (spawnPopulation_length cfg.indLength cfg.size seed)

theorem engine_population_size_invariant_witness :
    ((engineRunPopulations exampleConfig 2 0).all
      fun p => p.length == exampleConfig.size) = true :=
  engine_population_size_invariant exampleConfig 2 0
    (by norm_num [exampleConfig]) (by norm_num [exampleConfig])

/-- C7: the run is a pure function of the configuration and the seed of the
single shared random source — all stochastic operators draw from that source
in a fixed call order — so two runs with identical configuration and
identically seeded sources produce identical generation-by-generation
best-fitness trajectories. -/
theorem engine_run_deterministic (cfg : GAConfig) (fuel : ℕ) (s₁ s₂ : ℕ)
    (h : s₁ = s₂) :
    engineTrajectory cfg fuel s₁ = engineTrajectory cfg fuel s₂ := by
  rw [h]

theorem engine_run_deterministic_witness :
    engineTrajectory exampleConfig 2 42 = engineTrajectory exampleConfig 2 42 :=
  engine_run_deterministic exampleConfig 2 42 42 rfl

end Pynetics
